import Mathlib

/-!
Shallow embedding of the PySweeper board/tile core (src/PySweeper.py) and
proofs of the specification's claims about it.

The source stores each tile as a packed integer (`Tile._data`, bits 0-4 and
bits 8 and above); here the same state is a structure of named facets, one
field per bit group, and every method of the Python `Tile` and `Board`
classes is translated to a pure function.  The board's 2-D tile list is a
`List (List Tile)` indexed `tiles[y][x]` exactly as in the source.
-/

set_option maxRecDepth 8192

/-- State of a single board cell. Facets mirror the bit layout of
`Tile._data` in the source: bit 0 `uncovered`, bit 1 `mined`, bit 2
`flagged`, bit 3 `marked`, bit 4 `exploded`, bits 8+ `mine_count`. -/
structure Tile where
  uncovered : Bool := false
  mined : Bool := false
  flagged : Bool := false
  marked : Bool := false
  exploded : Bool := false
  mine_count : Nat := 0
deriving DecidableEq

/-- `Tile.__init__`: all facets clear. -/
def Tile.init : Tile := {}

/-- `Tile.uncover`: set bit 0. -/
def Tile.uncover (t : Tile) : Tile := { t with uncovered := true }

/-- `Tile.covered`: negation of `uncovered`. -/
def Tile.covered (t : Tile) : Bool := !t.uncovered

/-- `Tile.mine`: set bit 1. -/
def Tile.mine (t : Tile) : Tile := { t with mined := true }

/-- `Tile.unmark`: clear bit 3. -/
def Tile.unmark (t : Tile) : Tile := { t with marked := false }

/-- `Tile.flag`: set bit 2, then `unmark`. -/
def Tile.flag (t : Tile) : Tile := Tile.unmark { t with flagged := true }

/-- `Tile.unflag`: clear bit 2. -/
def Tile.unflag (t : Tile) : Tile := { t with flagged := false }

/-- `Tile.mark`: set bit 3, then `unflag`. -/
def Tile.mark (t : Tile) : Tile := Tile.unflag { t with marked := true }

/-- `Tile.explode`: set bit 4. -/
def Tile.explode (t : Tile) : Tile := { t with exploded := true }

/-- `Tile.set_mine_count`: replace bits 8+ with `n`, keep bits 0-7. -/
def Tile.set_mine_count (t : Tile) (n : Nat) : Tile := { t with mine_count := n }

/-- `Tile.reset`: clear all facets. -/
def Tile.reset (_ : Tile) : Tile := Tile.init

/-- The source's 2-D tile list `Board._tiles`, indexed `tiles[y][x]`. -/
abbrev Grid := List (List Tile)

/-- Read the tile at column `x` of row `y` (default tile when out of the
stored lists, which the in-bounds-checked call sites never hit). -/
def Grid.tileAt (g : Grid) (x y : Nat) : Tile :=
  (g.getD y []).getD x Tile.init

/-- Write the tile at column `x` of row `y` (no-op outside the lists). -/
def Grid.setTile (g : Grid) (x y : Nat) (t : Tile) : Grid :=
  g.set y ((g.getD y []).set x t)

/-- The `Board` class: the tile grid plus the mine target
(`Board._mine_count` in the source). -/
structure Board where
  _tiles : Grid
  _mine_count : Nat
deriving DecidableEq

/-- `Board.width`: `len(self._tiles[0])`. -/
def Board.width (b : Board) : Nat := (b._tiles.getD 0 []).length

/-- `Board.height`: `len(self._tiles)`. -/
def Board.height (b : Board) : Nat := b._tiles.length

/-- `Board.set_size`: replace the grid with `width*height` fresh tiles. -/
def Board.set_size (b : Board) (width height : Nat) : Board :=
  { b with _tiles := List.replicate height (List.replicate width Tile.init) }

/-- `Board.set_mine_count`. -/
def Board.set_mine_count (b : Board) (mine_count : Nat) : Board :=
  { b with _mine_count := mine_count }

/-- `Board.__init__`: mine target 10, then `set_size(8, 8)`. -/
def Board.init : Board :=
  Board.set_size { _tiles := [], _mine_count := 10 } 8 8

/-- `Board.clear`: reset every tile. -/
def Board.clear (b : Board) : Board :=
  { b with _tiles := b._tiles.map (fun row => row.map Tile.reset) }

/-- `Board.is_valid_position`. -/
def Board.is_valid_position (b : Board) (x y : Int) : Bool :=
  decide (0 ≤ x ∧ x < (b.width : Int) ∧ 0 ≤ y ∧ y < (b.height : Int))

/-- Read `self._tiles[y][x]` for coordinates already known nonnegative. -/
def Board.tileAtI (b : Board) (x y : Int) : Tile :=
  Grid.tileAt b._tiles x.toNat y.toNat

/-- Write `self._tiles[y][x]` for coordinates already known nonnegative. -/
def Board.setTileI (b : Board) (x y : Int) (t : Tile) : Board :=
  { b with _tiles := Grid.setTile b._tiles x.toNat y.toNat t }

/-- `Board.game_over`: true when some tile has exploded, else false when
some tile is covered without being a flagged mine, else true. -/
def Board.game_over (b : Board) : Bool :=
  b._tiles.any (fun row => row.any (fun t => t.exploded)) ||
  !(b._tiles.any (fun row => row.any (fun t => t.covered && !(t.flagged && t.mined))))

/-- Number of covered tiles, used to size the recursion fuel of `uncover`. -/
def Board.coveredCount (b : Board) : Nat :=
  (b._tiles.map (fun row => row.countP (fun t => t.covered))).sum

/-- `Board.uncover` with an explicit recursion-depth bound.  The Python
recursion uncovers the current tile before descending, so its depth never
exceeds the initial number of covered tiles; `Board.uncover` below supplies
that bound.  The eight recursive calls keep the source's order. -/
def uncoverFuel : Nat → Board → Int → Int → Board
  | 0, b, _, _ => b
  | fuel + 1, b, x, y =>
    if b.is_valid_position x y then
      let t := b.tileAtI x y
      if t.covered then
        if t.flagged then b
        else
          let t1 := t.uncover
          let b1 := b.setTileI x y t1
          if t1.mine_count = 0 ∧ t1.mined = false then
            let b2 := uncoverFuel fuel b1 (x - 1) (y - 1)
            let b3 := uncoverFuel fuel b2 (x - 0) (y - 1)
            let b4 := uncoverFuel fuel b3 (x + 1) (y - 1)
            let b5 := uncoverFuel fuel b4 (x - 1) (y - 0)
            let b6 := uncoverFuel fuel b5 (x + 1) (y - 0)
            let b7 := uncoverFuel fuel b6 (x - 1) (y + 1)
            let b8 := uncoverFuel fuel b7 (x - 0) (y + 1)
            uncoverFuel fuel b8 (x + 1) (y + 1)
          else b1
      else b
    else b

/-- `Board.uncover`: recursive flood-fill reveal. -/
def Board.uncover (b : Board) (x y : Int) : Board :=
  uncoverFuel (b.coveredCount + 1) b x y

/-- The candidate Moore-neighbour coordinates of `(x, y)`, in the order the
source's `Board.neighbours` tries them. -/
def mooreOffsets (x y : Int) : List (Int × Int) :=
  [(x - 1, y - 1), (x - 0, y - 1), (x + 1, y - 1),
   (x - 1, y - 0), (x + 1, y - 0),
   (x - 1, y + 1), (x - 0, y + 1), (x + 1, y + 1)]

/-- `Board.neighbours`: the valid Moore neighbours, in source order.  The
source collects the tile objects themselves; since mutating a collected
tile mutates the board, the embedding collects their coordinates. -/
def Board.neighbours (b : Board) (x y : Int) : List (Int × Int) :=
  (mooreOffsets x y).filter (fun p => b.is_valid_position p.1 p.2)

/-- The helper `is_mine(tiles, x, y)` local to `Board.add_mines`: 1 when
`(x, y)` is in bounds and mined, else 0. -/
def is_mine (tiles : Grid) (x y : Int) : Nat :=
  if 0 ≤ x ∧ x < ((tiles.getD 0 []).length : Int) ∧ 0 ≤ y ∧ y < (tiles.length : Int) then
    if (Grid.tileAt tiles x.toNat y.toNat).mined then 1 else 0
  else 0

/-- The eight-term neighbour sum computed for each cell in the second phase
of `Board.add_mines`, in source order. -/
def mooreSum (tiles : Grid) (x y : Int) : Nat :=
  is_mine tiles (x - 1) (y - 1) + is_mine tiles (x - 0) (y - 1) +
  is_mine tiles (x + 1) (y - 1) + is_mine tiles (x - 1) (y - 0) +
  is_mine tiles (x + 1) (y - 0) + is_mine tiles (x - 1) (y + 1) +
  is_mine tiles (x - 0) (y + 1) + is_mine tiles (x + 1) (y + 1)

/-- The placement loop of `Board.add_mines`.  The source draws uniform
random coordinates until `n` fresh mines are placed; the embedding takes the
random draws as an explicit list and answers `none` when the list runs out
before the loop would have finished. -/
def addMinesLoop (g : Grid) (n : Nat) (exclude_x exclude_y : Int) :
    List (Nat × Nat) → Option Grid
  | [] => if n = 0 then some g else none
  | (x, y) :: rest =>
    if n = 0 then some g
    else if (Grid.tileAt g x y).mined = false ∧ (x : Int) ≠ exclude_x ∧ (y : Int) ≠ exclude_y then
      addMinesLoop (Grid.setTile g x y ((Grid.tileAt g x y).mine)) (n - 1) exclude_x exclude_y rest
    else
      addMinesLoop g n exclude_x exclude_y rest

/-- The body of the count-update loop of `Board.add_mines`: store the
eight-neighbour mine sum of the current grid into cell `(x, y)`. -/
def countStep (y : Nat) (g : Grid) (x : Nat) : Grid :=
  Grid.setTile g x y ((Grid.tileAt g x y).set_mine_count (mooreSum g x y))

/-- One row of the count-update loop of `Board.add_mines`. -/
def countRow (g : Grid) (w y : Nat) : Grid :=
  (List.range w).foldl (countStep y) g

/-- The count-update phase of `Board.add_mines`: for each row `y` and column
`x` in order, store the eight-neighbour mine sum of the current grid into
the tile's `mine_count`. -/
def updateCounts (g : Grid) (w h : Nat) : Grid :=
  (List.range h).foldl (fun g1 y => countRow g1 w y) g

/-- `Board.add_mines`: run the placement loop on the supplied random draws,
then recompute every tile's `mine_count`. -/
def Board.add_mines (b : Board) (exclude_x exclude_y : Int)
    (samples : List (Nat × Nat)) : Option Board :=
  match addMinesLoop b._tiles b._mine_count exclude_x exclude_y samples with
  | none => none
  | some g => some { b with _tiles := updateCounts g b.width b.height }

/-- One iteration of the chord loop in `MinesweeperWidget.mouseReleaseEvent`:
an unflagged mined neighbour explodes, an unflagged non-mined neighbour has
its tile-level `uncover` applied, any other neighbour is left alone. -/
def chordStep (b : Board) (p : Int × Int) : Board :=
  let nb := b.tileAtI p.1 p.2
  if nb.mined = true ∧ nb.flagged = false then
    b.setTileI p.1 p.2 nb.explode
  else if nb.mined = false ∧ nb.flagged = false then
    b.setTileI p.1 p.2 nb.uncover
  else b

/-- The `MODE_CHORD` branch of `MinesweeperWidget.mouseReleaseEvent`
(lines 579-594), for the in-bounds selected tile `(tx, ty)`: when the
target's `mine_count` is positive and its flagged-neighbour count matches
it, apply `chordStep` to each neighbour in order; otherwise do nothing. -/
def chordAction (b : Board) (tx ty : Nat) : Board :=
  let tile := b.tileAtI tx ty
  if 0 < tile.mine_count then
    let nbrs := b.neighbours tx ty
    let flag_count := nbrs.countP (fun p => (b.tileAtI p.1 p.2).flagged)
    if flag_count = tile.mine_count then nbrs.foldl chordStep b else b
  else b

/-- One iteration of the chord loop as the spec describes it: identical to
`chordStep` except that an unflagged non-mined neighbour is revealed through
the board's flood fill. -/
def chordStepSpec (b : Board) (p : Int × Int) : Board :=
  let nb := b.tileAtI p.1 p.2
  if nb.mined = true ∧ nb.flagged = false then
    b.setTileI p.1 p.2 nb.explode
  else if nb.mined = false ∧ nb.flagged = false then
    b.uncover p.1 p.2
  else b

/-- Chord resolution as §4.5 of the spec describes it, for comparison with
the source-derived `chordAction`: an unflagged non-mined neighbour is
revealed with the recursive flood fill instead of a tile-level uncover. -/
def chordActionSpec (b : Board) (tx ty : Nat) : Board :=
  let tile := b.tileAtI tx ty
  if 0 < tile.mine_count then
    let nbrs := b.neighbours tx ty
    let flag_count := nbrs.countP (fun p => (b.tileAtI p.1 p.2).flagged)
    if flag_count = tile.mine_count then nbrs.foldl chordStepSpec b else b
  else b

/-- The right-button branch of `MinesweeperWidget.mousePressEvent`
(lines 527-542): the toggle-flag intent on one tile, parameterised by the
widget's marks setting. -/
def toggleFlag (marks : Bool) (t : Tile) : Tile :=
  if t.flagged = false then
    if t.marked = false then t.flag else t.unmark
  else
    let t1 := t.unflag
    if marks then t1.mark else t1

/-- The operations the `Tile` class exposes, for quantifying over operation
sequences. -/
inductive TileOp where
  | uncoverO : TileOp
  | mineO : TileOp
  | flagO : TileOp
  | unflagO : TileOp
  | markO : TileOp
  | unmarkO : TileOp
  | explodeO : TileOp
  | setMineCountO : Nat → TileOp
  | resetO : TileOp

/-- Dispatch a `TileOp` to the corresponding `Tile` method. -/
def TileOp.apply : TileOp → Tile → Tile
  | .uncoverO, t => t.uncover
  | .mineO, t => t.mine
  | .flagO, t => t.flag
  | .unflagO, t => t.unflag
  | .markO, t => t.mark
  | .unmarkO, t => t.unmark
  | .explodeO, t => t.explode
  | .setMineCountO n, t => t.set_mine_count n
  | .resetO, t => t.reset

/-- Run a sequence of tile operations left to right. -/
def applyOps (ops : List TileOp) (t : Tile) : Tile :=
  ops.foldl (fun t op => op.apply t) t

/-- Python list indexing `l[i]`: a nonnegative index in range reads
directly, an index in `[-len, 0)` reads from the end, anything else raises
(modelled as `none`). -/
def pyGet {α : Type} (l : List α) (i : Int) : Option α :=
  if 0 ≤ i ∧ i < (l.length : Int) then l.get? i.toNat
  else if -(l.length : Int) ≤ i ∧ i < 0 then l.get? ((l.length : Int) + i).toNat
  else none

/-- `Board.at`: `self._tiles[y][x]` with Python indexing semantics and no
bounds validation of its own. -/
def Board.at' (b : Board) (x y : Int) : Option Tile :=
  (pyGet b._tiles y).bind (fun row => pyGet row x)

/-- Writing then reading another index of a list is unchanged. -/
theorem getD_set_ne {α : Type} (l : List α) (i j : Nat) (a d : α) (h : i ≠ j) :
    (l.set i a).getD j d = l.getD j d := by
  simp [List.getD, List.getElem?_set_ne h]

/-- Writing then reading the same in-range index of a list gives the new value. -/
theorem getD_set_self {α : Type} (l : List α) (i : Nat) (a d : α) (h : i < l.length) :
    (l.set i a).getD i d = a := by
  simp [List.getD, List.getElem?_set_eq_of_lt a h]

/-- Length of row `v` of a grid (0 for a missing row). -/
def Grid.rowLen (g : Grid) (v : Nat) : Nat := (g.getD v []).length

/-- Reading after `setTile`: the new tile exactly at an in-range target,
the old tile everywhere else. -/
theorem Grid.tileAt_setTile (g : Grid) (x y : Nat) (t : Tile) (u v : Nat) :
    Grid.tileAt (Grid.setTile g x y t) u v =
      if u = x ∧ v = y ∧ y < g.length ∧ x < Grid.rowLen g y then t
      else Grid.tileAt g u v := by
  unfold Grid.tileAt Grid.setTile Grid.rowLen
  by_cases hv : v = y
  · subst hv
    by_cases hy : v < g.length
    · rw [getD_set_self _ _ _ _ hy]
      by_cases hu : u = x
      · subst hu
        by_cases hx : u < (g.getD v []).length
        · rw [getD_set_self _ _ _ _ hx, if_pos ⟨rfl, rfl, hy, hx⟩]
        · rw [List.set_eq_of_length_le (Nat.le_of_not_lt hx),
            if_neg (fun h => hx h.2.2.2)]
      · rw [getD_set_ne _ _ _ _ _ (fun h => hu h.symm),
          if_neg (fun h => hu h.1)]
    · rw [List.set_eq_of_length_le (Nat.le_of_not_lt hy),
        if_neg (fun h => hy h.2.2.1)]
  · rw [getD_set_ne _ _ _ _ _ (fun h => hv h.symm),
      if_neg (fun h => hv h.2.1)]

/-- `setTile` keeps the number of rows. -/
theorem Grid.length_setTile (g : Grid) (x y : Nat) (t : Tile) :
    (Grid.setTile g x y t).length = g.length := by
  unfold Grid.setTile; simp

/-- `setTile` keeps every row length. -/
theorem Grid.rowLen_setTile (g : Grid) (x y : Nat) (t : Tile) (v : Nat) :
    Grid.rowLen (Grid.setTile g x y t) v = Grid.rowLen g v := by
  unfold Grid.setTile Grid.rowLen
  by_cases hv : v = y
  · subst hv
    by_cases hy : v < g.length
    · rw [getD_set_self _ _ _ _ hy]; simp
    · rw [List.set_eq_of_length_le (Nat.le_of_not_lt hy)]
  · rw [getD_set_ne _ _ _ _ _ (fun h => hv h.symm)]

/-- Two grids agree on shape and on the mined, mine-count and flagged
facets of every cell.  All reveal-style mutations keep a grid in this
relation with the original. -/
def sameCore (g1 g2 : Grid) : Prop :=
  g1.length = g2.length ∧ (∀ v, Grid.rowLen g1 v = Grid.rowLen g2 v) ∧
  ∀ u v, (Grid.tileAt g1 u v).mined = (Grid.tileAt g2 u v).mined ∧
    (Grid.tileAt g1 u v).mine_count = (Grid.tileAt g2 u v).mine_count ∧
    (Grid.tileAt g1 u v).flagged = (Grid.tileAt g2 u v).flagged

theorem sameCore_refl (g : Grid) : sameCore g g :=
  ⟨rfl, fun _ => rfl, fun _ _ => ⟨rfl, rfl, rfl⟩⟩

theorem sameCore_trans {g1 g2 g3 : Grid} (h12 : sameCore g1 g2) (h23 : sameCore g2 g3) :
    sameCore g1 g3 := by
  obtain ⟨a12, b12, c12⟩ := h12
  obtain ⟨a23, b23, c23⟩ := h23
  refine ⟨a12.trans a23, fun v => (b12 v).trans (b23 v), fun u v => ?_⟩
  obtain ⟨m12, n12, f12⟩ := c12 u v
  obtain ⟨m23, n23, f23⟩ := c23 u v
  exact ⟨m12.trans m23, n12.trans n23, f12.trans f23⟩

/-- Overwriting a cell with a tile that keeps its mined, mine-count and
flagged facets stays in `sameCore` with the original grid. -/
theorem sameCore_setTile (g : Grid) (x y : Nat) (t : Tile)
    (hm : t.mined = (Grid.tileAt g x y).mined)
    (hn : t.mine_count = (Grid.tileAt g x y).mine_count)
    (hf : t.flagged = (Grid.tileAt g x y).flagged) :
    sameCore (Grid.setTile g x y t) g := by
  refine ⟨Grid.length_setTile g x y t, Grid.rowLen_setTile g x y t, fun u v => ?_⟩
  rw [Grid.tileAt_setTile]
  by_cases h : u = x ∧ v = y ∧ y < g.length ∧ x < Grid.rowLen g y
  · rw [if_pos h]
    obtain ⟨hu, hv, _, _⟩ := h
    subst hu; subst hv
    exact ⟨hm, hn, hf⟩
  · rw [if_neg h]
    exact ⟨rfl, rfl, rfl⟩

/-- The flood fill touches only the `uncovered` facet: shape, mined,
mine-count and flagged facets of every cell are preserved. -/
theorem sameCore_uncoverFuel (f : Nat) : ∀ (b : Board) (x y : Int),
    sameCore (uncoverFuel f b x y)._tiles b._tiles := by
  induction f with
  | zero => intro b x y; exact sameCore_refl _
  | succ f ih =>
    intro b x y
    simp only [uncoverFuel]
    split
    · split
      · split
        · exact sameCore_refl _
        · split
          · exact sameCore_trans (ih _ _ _) (sameCore_trans (ih _ _ _)
              (sameCore_trans (ih _ _ _) (sameCore_trans (ih _ _ _)
              (sameCore_trans (ih _ _ _) (sameCore_trans (ih _ _ _)
              (sameCore_trans (ih _ _ _) (sameCore_trans (ih _ _ _)
              (sameCore_setTile _ _ _ _ rfl rfl rfl))))))))
          · exact sameCore_setTile _ _ _ _ rfl rfl rfl
      · exact sameCore_refl _
    · exact sameCore_refl _

/-- Uncovering the target cell leaves any cell whose tile is flagged
untouched, because the write only happens when the target is unflagged. -/
theorem setTileI_keeps_flagged_cell (b : Board) (x y : Int) (u v : Nat)
    (hnf : (b.tileAtI x y).flagged = false)
    (hf : (Grid.tileAt b._tiles u v).flagged = true) :
    Grid.tileAt (b.setTileI x y ((b.tileAtI x y).uncover))._tiles u v =
      Grid.tileAt b._tiles u v := by
  simp only [Board.setTileI]
  rw [Grid.tileAt_setTile]
  split
  · rename_i h
    obtain ⟨hu, hv, _, _⟩ := h
    subst hu; subst hv
    exfalso
    have hsame : (Grid.tileAt b._tiles x.toNat y.toNat).flagged = false := hnf
    rw [hsame] at hf
    cases hf
  · rfl

/-- The flood fill never touches a cell holding a flagged tile: such a
cell's tile is unchanged at any recursion depth. -/
theorem uncoverFuel_keeps_flagged (f : Nat) : ∀ (b : Board) (x y : Int) (u v : Nat),
    (Grid.tileAt b._tiles u v).flagged = true →
    Grid.tileAt (uncoverFuel f b x y)._tiles u v = Grid.tileAt b._tiles u v := by
  induction f with
  | zero => intro b x y u v _; rfl
  | succ f ih =>
    intro b x y u v hf
    have step : ∀ (b' : Board) (a c : Int),
        (Grid.tileAt b'._tiles u v).flagged = true →
        Grid.tileAt (uncoverFuel f b' a c)._tiles u v = Grid.tileAt b'._tiles u v ∧
        (Grid.tileAt (uncoverFuel f b' a c)._tiles u v).flagged = true := by
      intro b' a c hfl
      have e := ih b' a c u v hfl
      exact ⟨e, by rw [e]; exact hfl⟩
    simp only [uncoverFuel]
    split
    · split
      · split
        · rfl
        · rename_i hnfl
          have hnfl' : (b.tileAtI x y).flagged = false := by
            cases h : (b.tileAtI x y).flagged
            · rfl
            · exact absurd h hnfl
          have e1 := setTileI_keeps_flagged_cell b x y u v hnfl' hf
          have f1 : (Grid.tileAt (b.setTileI x y ((b.tileAtI x y).uncover))._tiles u v).flagged = true := by
            rw [e1]; exact hf
          split
          · obtain ⟨e2, f2⟩ := step _ (x - 1) (y - 1) f1
            obtain ⟨e3, f3⟩ := step _ (x - 0) (y - 1) f2
            obtain ⟨e4, f4⟩ := step _ (x + 1) (y - 1) f3
            obtain ⟨e5, f5⟩ := step _ (x - 1) (y - 0) f4
            obtain ⟨e6, f6⟩ := step _ (x + 1) (y - 0) f5
            obtain ⟨e7, f7⟩ := step _ (x - 1) (y + 1) f6
            obtain ⟨e8, f8⟩ := step _ (x - 0) (y + 1) f7
            obtain ⟨e9, _⟩ := step _ (x + 1) (y + 1) f8
            exact e9.trans (e8.trans (e7.trans (e6.trans (e5.trans (e4.trans
              (e3.trans (e2.trans e1)))))))
          · exact e1
      · rfl
    · rfl

/-- The three no-op guards of `Board.uncover`: out of bounds, already
uncovered, or flagged. -/
theorem uncover_noop (b : Board) (x y : Int)
    (h : b.is_valid_position x y = false ∨ (b.tileAtI x y).uncovered = true ∨
      (b.tileAtI x y).flagged = true) :
    b.uncover x y = b := by
  unfold Board.uncover
  rcases h with h | h | h
  · simp [uncoverFuel, h]
  · simp [uncoverFuel, Tile.covered, h]
  · simp [uncoverFuel, Tile.covered, h]

/-- A 1-by-1 board whose only tile is flagged, exercising the guards of
`Board.uncover`. -/
def bFlag : Board := (Board.init.set_size 1 1).setTileI 0 0 (Tile.init.flag)

/-- C3: `Board.uncover` is a no-op when the coordinates are out of bounds,
the target tile is already uncovered, or the target tile is flagged; and
throughout the recursive cascade every tile that was flagged before the
call keeps its whole state, hence is still flagged, and still covered when
it was covered. -/
theorem c3_uncover_noop_and_flag_safety (b : Board) (x y : Int) :
    ((b.is_valid_position x y = false ∨ (b.tileAtI x y).uncovered = true ∨
        (b.tileAtI x y).flagged = true) → b.uncover x y = b) ∧
    (∀ u v : Nat, (Grid.tileAt b._tiles u v).flagged = true →
      Grid.tileAt (b.uncover x y)._tiles u v = Grid.tileAt b._tiles u v ∧
      (Grid.tileAt (b.uncover x y)._tiles u v).flagged = true ∧
      ((Grid.tileAt b._tiles u v).uncovered = false →
        (Grid.tileAt (b.uncover x y)._tiles u v).uncovered = false)) := by
  refine ⟨uncover_noop b x y, fun u v hf => ?_⟩
  have e : Grid.tileAt (b.uncover x y)._tiles u v = Grid.tileAt b._tiles u v :=
    uncoverFuel_keeps_flagged (b.coveredCount + 1) b x y u v hf
  refine ⟨e, by rw [e]; exact hf, fun hc => by rw [e]; exact hc⟩

/-- Witness for C3 on the concrete flagged 1-by-1 board. -/
theorem c3_witness :
    bFlag.uncover 0 0 = bFlag ∧
    Grid.tileAt (bFlag.uncover 0 0)._tiles 0 0 = Grid.tileAt bFlag._tiles 0 0 :=
  ⟨(c3_uncover_noop_and_flag_safety bFlag 0 0).1 (Or.inr (Or.inr (by decide))),
   ((c3_uncover_noop_and_flag_safety bFlag 0 0).2 0 0 (by decide)).1⟩

/-- Coordinate `(u, v)` names a board cell whose tile is mined; the
specification's notion of an in-bounds mined neighbour, with out-of-bounds
coordinates simply failing the predicate. -/
def minedInBounds (g : Grid) (u v : Int) : Prop :=
  0 ≤ u ∧ u < (Grid.rowLen g 0 : Int) ∧ 0 ≤ v ∧ v < (g.length : Int) ∧
    (Grid.tileAt g u.toNat v.toNat).mined = true

instance (g : Grid) (u v : Int) : Decidable (minedInBounds g u v) := by
  unfold minedInBounds; infer_instance

/-- The specification's Moore-neighbourhood mine count of `(x, y)`: the
number of coordinates at Chebyshev distance exactly one from `(x, y)` that
name an in-bounds mined cell. -/
def specMooreCount (g : Grid) (x y : Int) : Nat :=
  ((Finset.Icc (x - 1) (x + 1) ×ˢ Finset.Icc (y - 1) (y + 1)).filter
    (fun p => p ≠ (x, y) ∧ minedInBounds g p.1 p.2)).card

/-- `is_mine` is the indicator function of `minedInBounds`. -/
theorem is_mine_eq_indicator (g : Grid) (u v : Int) :
    is_mine g u v = if minedInBounds g u v then 1 else 0 := by
  unfold is_mine minedInBounds Grid.rowLen
  by_cases h : 0 ≤ u ∧ u < ((g.getD 0 []).length : Int) ∧ 0 ≤ v ∧ v < (g.length : Int)
  · rw [if_pos h]
    by_cases hm : (Grid.tileAt g u.toNat v.toNat).mined = true
    · rw [if_pos hm, if_pos ⟨h.1, h.2.1, h.2.2.1, h.2.2.2, hm⟩]
    · rw [if_neg (by simpa using hm), if_neg (fun hh => hm hh.2.2.2.2)]
  · rw [if_neg h, if_neg (fun hh => h ⟨hh.1, hh.2.1, hh.2.2.1, hh.2.2.2.1⟩)]

/-- The eight-term sum computed by `Board.add_mines` equals the
specification's Moore-neighbourhood mine count. -/
theorem mooreSum_eq_specMooreCount (g : Grid) (x y : Int) :
    mooreSum g x y = specMooreCount g x y := by
  have hx : Finset.Icc (x - 1) (x + 1) = {x - 1, x, x + 1} := by
    ext a; simp only [Finset.mem_Icc, Finset.mem_insert, Finset.mem_singleton]; omega
  have hy : Finset.Icc (y - 1) (y + 1) = {y - 1, y, y + 1} := by
    ext a; simp only [Finset.mem_Icc, Finset.mem_insert, Finset.mem_singleton]; omega
  have sum3 : ∀ (a : Int) (f : Int → Nat),
      ∑ b in ({a - 1, a, a + 1} : Finset Int), f b = f (a - 1) + f a + f (a + 1) := by
    intro a f
    rw [show ({a - 1, a, a + 1} : Finset Int) = insert (a - 1) (insert a {a + 1}) from rfl,
      Finset.sum_insert (by simp; omega), Finset.sum_insert (by simp),
      Finset.sum_singleton]
    omega
  unfold specMooreCount
  rw [hx, hy, Finset.card_filter, Finset.sum_product]
  simp only [sum3]
  have hoff : ∀ p : Int × Int, p ≠ (x, y) →
      (if p ≠ (x, y) ∧ minedInBounds g p.1 p.2 then 1 else 0) = is_mine g p.1 p.2 := by
    intro p hne
    rw [is_mine_eq_indicator]
    by_cases hm : minedInBounds g p.1 p.2
    · rw [if_pos ⟨hne, hm⟩, if_pos hm]
    · rw [if_neg (fun hh => hm hh.2), if_neg hm]
  have hctr : (if ((x, y) : Int × Int) ≠ (x, y) ∧ minedInBounds g (x, y).1 (x, y).2
      then 1 else 0) = 0 := by
    rw [if_neg (fun hh => hh.1 rfl)]
  have pne : ∀ a b : Int, ¬(a = x ∧ b = y) → ((a, b) : Int × Int) ≠ (x, y) := by
    intro a b h hh
    rw [Prod.mk.injEq] at hh
    exact h hh
  rw [hoff (x - 1, y - 1) (pne _ _ (by omega)), hoff (x - 1, y) (pne _ _ (by omega)),
    hoff (x - 1, y + 1) (pne _ _ (by omega)), hoff (x, y - 1) (pne _ _ (by omega)),
    hctr, hoff (x, y + 1) (pne _ _ (by omega)), hoff (x + 1, y - 1) (pne _ _ (by omega)),
    hoff (x + 1, y) (pne _ _ (by omega)), hoff (x + 1, y + 1) (pne _ _ (by omega))]
  dsimp only
  unfold mooreSum
  simp only [Int.sub_zero]
  omega

/-- Every in-bounds cell's stored `mine_count` agrees with the
specification's Moore-neighbourhood mine count. -/
def countsOK (g : Grid) : Prop :=
  ∀ x : Nat, x < Grid.rowLen g 0 → ∀ y : Nat, y < g.length →
    (Grid.tileAt g x y).mine_count = specMooreCount g (x : Int) (y : Int)

instance (g : Grid) : Decidable (countsOK g) := by
  unfold countsOK; infer_instance

/-- `minedInBounds` only looks at shape and mined facets. -/
theorem minedInBounds_congr {g1 g2 : Grid} (h : sameCore g1 g2) (u v : Int) :
    minedInBounds g1 u v ↔ minedInBounds g2 u v := by
  unfold minedInBounds
  rw [h.1, h.2.1 0, (h.2.2 u.toNat v.toNat).1]

/-- `specMooreCount` only looks at shape and mined facets. -/
theorem specMooreCount_congr {g1 g2 : Grid} (h : sameCore g1 g2) (x y : Int) :
    specMooreCount g1 x y = specMooreCount g2 x y := by
  unfold specMooreCount
  congr 1
  apply Finset.filter_congr
  intro p _
  rw [minedInBounds_congr h]

/-- `countsOK` transports along `sameCore`. -/
theorem countsOK_of_sameCore {g1 g2 : Grid} (h : sameCore g1 g2) (hc : countsOK g2) :
    countsOK g1 := by
  intro x hx y hy
  rw [(h.2.2 x y).2.1, specMooreCount_congr h]
  exact hc x (by rw [← h.2.1 0]; exact hx) y (by rw [← h.1]; exact hy)

/-- Unfolding characterisation of `Board.is_valid_position`. -/
theorem valid_iff (b : Board) (a c : Int) :
    b.is_valid_position a c = true ↔
      (0 ≤ a ∧ a < (b.width : Int) ∧ 0 ≤ c ∧ c < (b.height : Int)) := by
  unfold Board.is_valid_position
  exact decide_eq_true_iff

/-- Validity only looks at the two dimensions. -/
theorem is_valid_congr {b1 b2 : Board} (h : sameCore b1._tiles b2._tiles) (a c : Int) :
    b1.is_valid_position a c = b2.is_valid_position a c := by
  unfold Board.is_valid_position Board.width Board.height
  have h2 := h.2.1 0
  unfold Grid.rowLen at h2
  rw [h.1, h2]

/-- Writing any tile at the uncover target leaves other cells alone. -/
theorem tileAt_setTileI_ne (b : Board) (x y : Int) (t : Tile) (u v : Nat)
    (hne : ¬(u = x.toNat ∧ v = y.toNat)) :
    Grid.tileAt (b.setTileI x y t)._tiles u v = Grid.tileAt b._tiles u v := by
  simp only [Board.setTileI]
  rw [Grid.tileAt_setTile, if_neg (fun h => hne ⟨h.1, h.2.1⟩)]

/-- Core lemma for C4: starting a reveal at a non-mined in-bounds cell of a
board with correct mine counts never changes the `uncovered` facet of any
mined cell, at any fuel. -/
theorem uncoverFuel_keeps_mined_covered (f : Nat) : ∀ (b : Board) (x y : Int),
    countsOK b._tiles →
    (b.is_valid_position x y = true → (b.tileAtI x y).mined = false) →
    ∀ u v : Nat, (Grid.tileAt b._tiles u v).mined = true →
    (Grid.tileAt (uncoverFuel f b x y)._tiles u v).uncovered =
      (Grid.tileAt b._tiles u v).uncovered := by
  induction f with
  | zero => intro b x y _ _ u v _; rfl
  | succ f ih =>
    intro b x y hcok hsafe u v hm
    simp only [uncoverFuel]
    split
    · rename_i hvalid
      split
      · split
        · rfl
        · rename_i hcov hnfl
          have hmx : (b.tileAtI x y).mined = false := hsafe hvalid
          have hne : ¬(u = x.toNat ∧ v = y.toNat) := by
            intro hh
            rw [hh.1, hh.2] at hm
            have hmx' : (Grid.tileAt b._tiles x.toNat y.toNat).mined = false := hmx
            rw [hmx'] at hm
            cases hm
          have e1 : Grid.tileAt (b.setTileI x y ((b.tileAtI x y).uncover))._tiles u v =
              Grid.tileAt b._tiles u v := tileAt_setTileI_ne b x y _ u v hne
          split
          · rename_i hzero
            have hxb := (valid_iff b x y).mp hvalid
            have hxnn : ((x.toNat : Nat) : Int) = x := Int.toNat_of_nonneg hxb.1
            have hynn : ((y.toNat : Nat) : Int) = y := Int.toNat_of_nonneg hxb.2.2.1
            have hcount : (Grid.tileAt b._tiles x.toNat y.toNat).mine_count = 0 := hzero.1
            have hspec0 : specMooreCount b._tiles x y = 0 := by
              have hxw : x.toNat < Grid.rowLen b._tiles 0 := by
                have := hxb.2.1
                unfold Board.width at this
                unfold Grid.rowLen
                omega
              have hyh : y.toNat < b._tiles.length := by
                have := hxb.2.2.2
                unfold Board.height at this
                omega
              have := hcok x.toNat hxw y.toNat hyh
              rw [hxnn, hynn] at this
              rw [← this]
              exact hcount
            have hempty : ∀ a c : Int, x - 1 ≤ a → a ≤ x + 1 → y - 1 ≤ c → c ≤ y + 1 →
                ¬(a = x ∧ c = y) → ¬ minedInBounds b._tiles a c := by
              intro a c h1 h2 h3 h4 h5 hmib
              have hmem : ((a, c) : Int × Int) ∈
                  (Finset.Icc (x - 1) (x + 1) ×ˢ Finset.Icc (y - 1) (y + 1)).filter
                    (fun p => p ≠ (x, y) ∧ minedInBounds b._tiles p.1 p.2) := by
                rw [Finset.mem_filter, Finset.mem_product, Finset.mem_Icc, Finset.mem_Icc]
                refine ⟨⟨⟨h1, h2⟩, h3, h4⟩, ?_, hmib⟩
                intro hh
                rw [Prod.mk.injEq] at hh
                exact h5 hh
              have hcard := Finset.card_eq_zero.mp hspec0
              rw [hcard] at hmem
              cases hmem
            have hsafe_b : ∀ a c : Int, x - 1 ≤ a → a ≤ x + 1 → y - 1 ≤ c → c ≤ y + 1 →
                ¬(a = x ∧ c = y) →
                b.is_valid_position a c = true → (b.tileAtI a c).mined = false := by
              intro a c h1 h2 h3 h4 h5 hv
              have hb := (valid_iff b a c).mp hv
              cases hmq : (b.tileAtI a c).mined
              · rfl
              · exfalso
                apply hempty a c h1 h2 h3 h4 h5
                unfold Board.width at hb
                refine ⟨hb.1, ?_, hb.2.2.1, ?_, hmq⟩
                · unfold Grid.rowLen
                  exact hb.2.1
                · unfold Board.height at hb
                  exact hb.2.2.2
            have chain : ∀ (bi : Board) (a c : Int), sameCore bi._tiles b._tiles →
                x - 1 ≤ a → a ≤ x + 1 → y - 1 ≤ c → c ≤ y + 1 → ¬(a = x ∧ c = y) →
                sameCore (uncoverFuel f bi a c)._tiles b._tiles ∧
                (Grid.tileAt (uncoverFuel f bi a c)._tiles u v).uncovered =
                  (Grid.tileAt bi._tiles u v).uncovered := by
              intro bi a c hcore h1 h2 h3 h4 h5
              have hcoki : countsOK bi._tiles := countsOK_of_sameCore hcore hcok
              have hsafei : bi.is_valid_position a c = true → (bi.tileAtI a c).mined = false := by
                intro hv
                have hv' : b.is_valid_position a c = true := by
                  rw [← is_valid_congr hcore]; exact hv
                have := hsafe_b a c h1 h2 h3 h4 h5 hv'
                unfold Board.tileAtI
                rw [(hcore.2.2 a.toNat c.toNat).1]
                exact this
              have hmi : (Grid.tileAt bi._tiles u v).mined = true := by
                rw [(hcore.2.2 u v).1]; exact hm
              exact ⟨sameCore_trans (sameCore_uncoverFuel f bi a c) hcore,
                ih bi a c hcoki hsafei u v hmi⟩
            have core1 : sameCore (b.setTileI x y ((b.tileAtI x y).uncover))._tiles b._tiles := by
              simp only [Board.setTileI]
              exact sameCore_setTile _ _ _ _ rfl rfl rfl
            obtain ⟨core2, e2⟩ := chain _ (x - 1) (y - 1) core1 (by omega) (by omega) (by omega) (by omega) (by omega)
            obtain ⟨core3, e3⟩ := chain _ (x - 0) (y - 1) core2 (by omega) (by omega) (by omega) (by omega) (by omega)
            obtain ⟨core4, e4⟩ := chain _ (x + 1) (y - 1) core3 (by omega) (by omega) (by omega) (by omega) (by omega)
            obtain ⟨core5, e5⟩ := chain _ (x - 1) (y - 0) core4 (by omega) (by omega) (by omega) (by omega) (by omega)
            obtain ⟨core6, e6⟩ := chain _ (x + 1) (y - 0) core5 (by omega) (by omega) (by omega) (by omega) (by omega)
            obtain ⟨core7, e7⟩ := chain _ (x - 1) (y + 1) core6 (by omega) (by omega) (by omega) (by omega) (by omega)
            obtain ⟨core8, e8⟩ := chain _ (x - 0) (y + 1) core7 (by omega) (by omega) (by omega) (by omega) (by omega)
            obtain ⟨_, e9⟩ := chain _ (x + 1) (y + 1) core8 (by omega) (by omega) (by omega) (by omega) (by omega)
            rw [e9, e8, e7, e6, e5, e4, e3, e2, e1]
          · rw [e1]
      · rfl
    · rfl

/-- A 2-by-2 board with one mine target. -/
def b22base : Board := (Board.init.set_size 2 2).set_mine_count 1

/-- The 2-by-2 board after placing its mine at `(1, 1)` (excluding column 0
and row 0) and computing the neighbour counts. -/
def b22 : Board := (b22base.add_mines 0 0 [(1, 1)]).getD b22base

/-- C4: on a board whose stored mine counts are the true Moore counts,
revealing an in-bounds non-mined cell never changes the `uncovered` facet
of any mined cell — the flood fill only recurses out of non-mined
zero-count cells, whose neighbours are all non-mined. -/
theorem c4_reveal_never_uncovers_mine (b : Board) (x y : Int)
    (hcok : countsOK b._tiles)
    (hv : b.is_valid_position x y = true)
    (hm : (b.tileAtI x y).mined = false)
    (u v : Nat) (hum : (Grid.tileAt b._tiles u v).mined = true) :
    (Grid.tileAt (b.uncover x y)._tiles u v).uncovered =
      (Grid.tileAt b._tiles u v).uncovered :=
  uncoverFuel_keeps_mined_covered (b.coveredCount + 1) b x y hcok (fun _ => hm) u v hum

/-- Witness for C4: revealing the corner of the concrete 2-by-2 board
leaves its mined cell covered. -/
theorem c4_witness :
    (Grid.tileAt (b22.uncover 0 0)._tiles 1 1).uncovered =
      (Grid.tileAt b22._tiles 1 1).uncovered :=
  c4_reveal_never_uncovers_mine b22 0 0 (by decide) (by decide) (by decide) 1 1 (by decide)

/-- Two grids agree on shape and on the mined facet of every cell; the
count-update phase keeps a grid in this relation with its input. -/
def minedSame (g1 g2 : Grid) : Prop :=
  g1.length = g2.length ∧ (∀ v, Grid.rowLen g1 v = Grid.rowLen g2 v) ∧
  ∀ u v, (Grid.tileAt g1 u v).mined = (Grid.tileAt g2 u v).mined

theorem minedSame_refl (g : Grid) : minedSame g g := ⟨rfl, fun _ => rfl, fun _ _ => rfl⟩

theorem minedSame_trans {g1 g2 g3 : Grid} (h12 : minedSame g1 g2) (h23 : minedSame g2 g3) :
    minedSame g1 g3 :=
  ⟨h12.1.trans h23.1, fun v => (h12.2.1 v).trans (h23.2.1 v),
   fun u v => (h12.2.2 u v).trans (h23.2.2 u v)⟩

/-- Overwriting a cell with a tile of the same mined facet preserves
`minedSame`. -/
theorem minedSame_setTile (g : Grid) (x y : Nat) (t : Tile)
    (hm : t.mined = (Grid.tileAt g x y).mined) :
    minedSame (Grid.setTile g x y t) g := by
  refine ⟨Grid.length_setTile g x y t, Grid.rowLen_setTile g x y t, fun u v => ?_⟩
  rw [Grid.tileAt_setTile]
  split
  · rename_i h
    obtain ⟨hu, hv, _, _⟩ := h
    subst hu; subst hv
    exact hm
  · rfl

/-- `minedInBounds` only looks at shape and mined facets (minedSame form). -/
theorem minedInBounds_congr_mined {g1 g2 : Grid} (h : minedSame g1 g2) (u v : Int) :
    minedInBounds g1 u v ↔ minedInBounds g2 u v := by
  unfold minedInBounds
  rw [h.1, h.2.1 0, h.2.2 u.toNat v.toNat]

/-- `is_mine` only looks at shape and mined facets. -/
theorem is_mine_congr {g1 g2 : Grid} (h : minedSame g1 g2) (u v : Int) :
    is_mine g1 u v = is_mine g2 u v := by
  rw [is_mine_eq_indicator, is_mine_eq_indicator]
  exact if_congr (minedInBounds_congr_mined h u v) rfl rfl

/-- `mooreSum` only looks at shape and mined facets. -/
theorem mooreSum_congr {g1 g2 : Grid} (h : minedSame g1 g2) (x y : Int) :
    mooreSum g1 x y = mooreSum g2 x y := by
  unfold mooreSum
  rw [is_mine_congr h, is_mine_congr h, is_mine_congr h, is_mine_congr h,
    is_mine_congr h, is_mine_congr h, is_mine_congr h, is_mine_congr h]

/-- `specMooreCount` only looks at shape and mined facets. -/
theorem specMooreCount_congr_mined {g1 g2 : Grid} (h : minedSame g1 g2) (x y : Int) :
    specMooreCount g1 x y = specMooreCount g2 x y := by
  unfold specMooreCount
  congr 1
  apply Finset.filter_congr
  intro p _
  rw [minedInBounds_congr_mined h]

/-- A single `countStep` preserves shape and mined facets. -/
theorem minedSame_countStep (y : Nat) (g : Grid) (x : Nat) :
    minedSame (countStep y g x) g :=
  minedSame_setTile g x y _ rfl

/-- Any sequence of `countStep`s preserves shape and mined facets. -/
theorem minedSame_countFold (y : Nat) : ∀ (xs : List Nat) (g : Grid),
    minedSame (xs.foldl (countStep y) g) g := by
  intro xs
  induction xs with
  | nil => intro g; exact minedSame_refl g
  | cons x rest ih =>
    intro g
    exact minedSame_trans (ih (countStep y g x)) (minedSame_countStep y g x)

/-- Cells outside the processed row and columns are untouched by the inner
count loop. -/
theorem countFold_untouched (y : Nat) : ∀ (xs : List Nat) (g : Grid) (u v : Nat),
    (v ≠ y ∨ u ∉ xs) →
    Grid.tileAt (xs.foldl (countStep y) g) u v = Grid.tileAt g u v := by
  intro xs
  induction xs with
  | nil => intro g u v _; rfl
  | cons x rest ih =>
    intro g u v h
    have hstep : Grid.tileAt (countStep y g x) u v = Grid.tileAt g u v := by
      unfold countStep
      rw [Grid.tileAt_setTile]
      rcases h with h | h
      · rw [if_neg (fun hh => h hh.2.1)]
      · rw [if_neg (fun hh => h (by rw [hh.1]; exact List.mem_cons_self x rest))]
    have hrest : v ≠ y ∨ u ∉ rest := by
      rcases h with h | h
      · exact Or.inl h
      · exact Or.inr (fun hh => h (List.mem_cons_of_mem x hh))
    rw [List.foldl_cons, ih (countStep y g x) u v hrest, hstep]

/-- Overwriting `mine_count` twice keeps only the second write. -/
theorem set_mine_count_twice (t : Tile) (a b : Nat) :
    (t.set_mine_count a).set_mine_count b = t.set_mine_count b := rfl

/-- Cells of the processed row written by the inner count loop end up
holding the neighbour sum of the loop's initial grid (the mined facets the
sum reads never change during the loop). -/
theorem countFold_written (y : Nat) (g0 : Grid) (hy : y < g0.length) :
    ∀ (xs : List Nat) (g : Grid), minedSame g g0 →
    (∀ x ∈ xs, x < Grid.rowLen g0 y) →
    ∀ u, u ∈ xs →
    Grid.tileAt (xs.foldl (countStep y) g) u y =
      (Grid.tileAt g u y).set_mine_count (mooreSum g0 (u : Int) (y : Int)) := by
  intro xs
  induction xs with
  | nil => intro g _ _ u hu; cases hu
  | cons x rest ih =>
    intro g hms hxs u hu
    rw [List.foldl_cons]
    have hyg : y < g.length := by rw [hms.1]; exact hy
    have hxg : x < Grid.rowLen g y := by rw [hms.2.1 y]; exact hxs x (List.mem_cons_self x rest)
    have hwrite : Grid.tileAt (countStep y g x) x y =
        (Grid.tileAt g x y).set_mine_count (mooreSum g0 (x : Int) (y : Int)) := by
      unfold countStep
      rw [Grid.tileAt_setTile, if_pos ⟨rfl, rfl, hyg, hxg⟩, mooreSum_congr hms]
    have hms1 : minedSame (countStep y g x) g0 :=
      minedSame_trans (minedSame_countStep y g x) hms
    by_cases hux : u = x
    · subst hux
      by_cases hur : u ∈ rest
      · have := ih (countStep y g u) hms1 (fun a ha => hxs a (List.mem_cons_of_mem u ha)) u hur
        rw [this, hwrite, set_mine_count_twice]
      · rw [countFold_untouched y rest (countStep y g u) u y (Or.inr hur), hwrite]
    · have hur : u ∈ rest := by
        rcases List.mem_cons.mp hu with h | h
        · exact absurd h hux
        · exact h
      have hkeep : Grid.tileAt (countStep y g x) u y = Grid.tileAt g u y := by
        unfold countStep
        rw [Grid.tileAt_setTile, if_neg (fun hh => hux hh.1)]
      rw [ih (countStep y g x) hms1 (fun a ha => hxs a (List.mem_cons_of_mem x ha)) u hur, hkeep]

/-- Full pointwise characterisation of the count-update double loop. -/
theorem updateCountsFold_tileAt (w : Nat) (g0 : Grid)
    (hrow : ∀ v, v < g0.length → Grid.rowLen g0 v = w) :
    ∀ (ys : List Nat) (g : Grid), minedSame g g0 →
    (∀ y ∈ ys, y < g0.length) →
    ∀ u v : Nat,
    Grid.tileAt (ys.foldl (fun g1 y => countRow g1 w y) g) u v =
      if v ∈ ys ∧ u < w then (Grid.tileAt g u v).set_mine_count (mooreSum g0 (u : Int) (v : Int))
      else Grid.tileAt g u v := by
  intro ys
  induction ys with
  | nil => intro g _ _ u v; simp
  | cons y rest ih =>
    intro g hms hys u v
    rw [List.foldl_cons]
    have hyg : y < g0.length := hys y (List.mem_cons_self y rest)
    have hms1 : minedSame (countRow g w y) g0 :=
      minedSame_trans (minedSame_countFold y (List.range w) g) hms
    rw [ih (countRow g w y) hms1 (fun a ha => hys a (List.mem_cons_of_mem y ha)) u v]
    by_cases hvy : v = y
    · subst hvy
      by_cases huw : u < w
      · have hwr : Grid.tileAt (countRow g w v) u v =
            (Grid.tileAt g u v).set_mine_count (mooreSum g0 (u : Int) (v : Int)) := by
          unfold countRow
          exact countFold_written v g0 hyg (List.range w) g hms
            (fun a ha => by rw [hrow v hyg]; exact List.mem_range.mp ha)
            u (List.mem_range.mpr huw)
        by_cases hvr : v ∈ rest
        · rw [if_pos ⟨hvr, huw⟩, if_pos ⟨List.mem_cons_self v rest, huw⟩, hwr,
            set_mine_count_twice]
        · rw [if_neg (fun hh => hvr hh.1), if_pos ⟨List.mem_cons_self v rest, huw⟩, hwr]
      · have hkeep : Grid.tileAt (countRow g w v) u v = Grid.tileAt g u v := by
          unfold countRow
          exact countFold_untouched v (List.range w) g u v
            (Or.inr (fun hh => huw (List.mem_range.mp hh)))
        rw [if_neg (fun hh => huw hh.2), if_neg (fun hh => huw hh.2), hkeep]
    · have hkeep : Grid.tileAt (countRow g w y) u v = Grid.tileAt g u v := by
        unfold countRow
        exact countFold_untouched y (List.range w) g u v (Or.inl hvy)
      rw [hkeep]
      by_cases hvr : v ∈ rest ∧ u < w
      · rw [if_pos hvr, if_pos ⟨List.mem_cons_of_mem y hvr.1, hvr.2⟩]
      · rw [if_neg hvr,
          if_neg (fun hh => hvr ⟨(List.mem_cons.mp hh.1).resolve_left hvy, hh.2⟩)]

/-- The count-update phase preserves shape and mined facets. -/
theorem minedSame_updateCounts (g : Grid) (w h : Nat) :
    minedSame (updateCounts g w h) g := by
  unfold updateCounts
  generalize List.range h = ys
  induction ys generalizing g with
  | nil => exact minedSame_refl g
  | cons y rest ih =>
    rw [List.foldl_cons]
    exact minedSame_trans (ih (countRow g w y)) (minedSame_countFold y (List.range w) g)

/-- Pointwise result of `updateCounts` on a rectangular grid. -/
theorem updateCounts_tileAt (g : Grid) (w h : Nat)
    (hh : g.length = h) (hrow : ∀ v, v < h → Grid.rowLen g v = w) (u v : Nat) :
    Grid.tileAt (updateCounts g w h) u v =
      if v < h ∧ u < w then
        (Grid.tileAt g u v).set_mine_count (mooreSum g (u : Int) (v : Int))
      else Grid.tileAt g u v := by
  unfold updateCounts
  rw [updateCountsFold_tileAt w g (fun a ha => hrow a (by omega)) (List.range h) g
    (minedSame_refl g) (fun a ha => by rw [hh]; exact List.mem_range.mp ha) u v]
  exact if_congr (by simp [List.mem_range]) rfl rfl

/-- A board is well formed when every row has the board's width. -/
def Board.wf (b : Board) : Prop :=
  ∀ row ∈ b._tiles, row.length = b.width

instance (b : Board) : Decidable (b.wf) := by
  unfold Board.wf; infer_instance

/-- In a well-formed board every stored row has the board's width. -/
theorem wf_rowLen {b : Board} (hwf : b.wf) (v : Nat) (hv : v < b._tiles.length) :
    Grid.rowLen b._tiles v = b.width := by
  unfold Grid.rowLen
  rw [List.getD_eq_getElem b._tiles [] hv]
  exact hwf _ (List.getElem_mem hv)

/-- The mined cells of the `w` by `h` coordinate rectangle. -/
def minedPositions (g : Grid) (w h : Nat) : Finset (Nat × Nat) :=
  (Finset.range w ×ˢ Finset.range h).filter (fun p => (Grid.tileAt g p.1 p.2).mined = true)

/-- What the placement loop guarantees when it returns: shape is kept,
every new mine avoids the excluded column and row, and exactly `n` mines
were added. -/
theorem addMinesLoop_spec (ex ey : Int) (w h : Nat) :
    ∀ (samples : List (Nat × Nat)) (g : Grid) (n : Nat) (g' : Grid),
    g.length = h → (∀ v, v < h → Grid.rowLen g v = w) →
    (∀ p ∈ samples, p.1 < w ∧ p.2 < h) →
    addMinesLoop g n ex ey samples = some g' →
    (g'.length = g.length ∧ (∀ v, Grid.rowLen g' v = Grid.rowLen g v)) ∧
    (∀ u v : Nat, (Grid.tileAt g' u v).mined = true →
      (Grid.tileAt g u v).mined = true ∨ ((u : Int) ≠ ex ∧ (v : Int) ≠ ey)) ∧
    (minedPositions g' w h).card = (minedPositions g w h).card + n := by
  intro samples
  induction samples with
  | nil =>
    intro g n g' _ _ _ hrun
    unfold addMinesLoop at hrun
    by_cases hn : n = 0
    · rw [if_pos hn] at hrun
      cases hrun
      exact ⟨⟨rfl, fun _ => rfl⟩, fun u v hm => Or.inl hm, by omega⟩
    · rw [if_neg hn] at hrun
      cases hrun
  | cons p rest ih =>
    intro g n g' hlen hrow hsamp hrun
    obtain ⟨x, y⟩ := p
    have hx : x < w := (hsamp (x, y) (List.mem_cons_self _ _)).1
    have hy : y < h := (hsamp (x, y) (List.mem_cons_self _ _)).2
    unfold addMinesLoop at hrun
    by_cases hn : n = 0
    · rw [if_pos hn] at hrun
      cases hrun
      exact ⟨⟨rfl, fun _ => rfl⟩, fun u v hm => Or.inl hm, by omega⟩
    · rw [if_neg hn] at hrun
      by_cases helig : (Grid.tileAt g x y).mined = false ∧ (x : Int) ≠ ex ∧ (y : Int) ≠ ey
      · rw [if_pos helig] at hrun
        set g1 := Grid.setTile g x y ((Grid.tileAt g x y).mine) with hg1
        have hlen1 : g1.length = h := by
          rw [hg1, Grid.length_setTile]; exact hlen
        have hrow1 : ∀ v, v < h → Grid.rowLen g1 v = w := by
          intro v hv; rw [hg1, Grid.rowLen_setTile]; exact hrow v hv
        have hchar : ∀ u v : Nat, Grid.tileAt g1 u v =
            if u = x ∧ v = y ∧ y < g.length ∧ x < Grid.rowLen g y then
              (Grid.tileAt g x y).mine
            else Grid.tileAt g u v := by
          intro u v; rw [hg1]; exact Grid.tileAt_setTile g x y _ u v
        have hin : y < g.length ∧ x < Grid.rowLen g y := by
          constructor
          · omega
          · rw [hrow y hy]; exact hx
        obtain ⟨⟨hl', hr'⟩, hexcl', hcard'⟩ :=
          ih g1 (n - 1) g' hlen1 hrow1 (fun q hq => hsamp q (List.mem_cons_of_mem _ hq)) hrun
        refine ⟨⟨by rw [hl', hlen1, hlen], fun v => by rw [hr' v, hg1, Grid.rowLen_setTile]⟩,
          ?_, ?_⟩
        · intro u v hm
          rcases hexcl' u v hm with hm1 | hm1
          · rw [hchar u v] at hm1
            by_cases hc : u = x ∧ v = y ∧ y < g.length ∧ x < Grid.rowLen g y
            · right
              rw [hc.1, hc.2.1]
              exact helig.2
            · rw [if_neg hc] at hm1
              exact Or.inl hm1
          · exact Or.inr hm1
        · have hins : minedPositions g1 w h = insert (x, y) (minedPositions g w h) := by
            unfold minedPositions
            ext q
            obtain ⟨qx, qy⟩ := q
            simp only [Finset.mem_insert, Finset.mem_filter, Finset.mem_product,
              Finset.mem_range]
            constructor
            · intro hq
              rw [hchar qx qy] at hq
              by_cases hc : qx = x ∧ qy = y ∧ y < g.length ∧ x < Grid.rowLen g y
              · left
                rw [Prod.mk.injEq]
                exact ⟨hc.1, hc.2.1⟩
              · rw [if_neg hc] at hq
                exact Or.inr hq
            · intro hq
              rcases hq with hq | hq
              · rw [Prod.mk.injEq] at hq
                obtain ⟨h1, h2⟩ := hq
                subst h1; subst h2
                refine ⟨⟨hx, hy⟩, ?_⟩
                rw [hchar qx qy, if_pos ⟨rfl, rfl, hin.1, hin.2⟩]
                rfl
              · refine ⟨hq.1, ?_⟩
                rw [hchar qx qy]
                by_cases hc : qx = x ∧ qy = y ∧ y < g.length ∧ x < Grid.rowLen g y
                · rw [if_pos hc]; rfl
                · rw [if_neg hc]; exact hq.2
          have hnot : (x, y) ∉ minedPositions g w h := by
            unfold minedPositions
            rw [Finset.mem_filter]
            intro hq
            rw [helig.1] at hq
            cases hq.2
          rw [hcard', hins, Finset.card_insert_of_not_mem hnot]
          omega
      · rw [if_neg helig] at hrun
        exact ih g n g' hlen hrow (fun q hq => hsamp q (List.mem_cons_of_mem _ hq)) hrun

/-- The placement loop never changes the grid's shape. -/
theorem addMinesLoop_shape (ex ey : Int) :
    ∀ (samples : List (Nat × Nat)) (g : Grid) (n : Nat) (g' : Grid),
    addMinesLoop g n ex ey samples = some g' →
    g'.length = g.length ∧ ∀ v, Grid.rowLen g' v = Grid.rowLen g v := by
  intro samples
  induction samples with
  | nil =>
    intro g n g' hrun
    unfold addMinesLoop at hrun
    by_cases hn : n = 0
    · rw [if_pos hn] at hrun; cases hrun; exact ⟨rfl, fun _ => rfl⟩
    · rw [if_neg hn] at hrun; cases hrun
  | cons p rest ih =>
    intro g n g' hrun
    obtain ⟨x, y⟩ := p
    unfold addMinesLoop at hrun
    by_cases hn : n = 0
    · rw [if_pos hn] at hrun; cases hrun; exact ⟨rfl, fun _ => rfl⟩
    · rw [if_neg hn] at hrun
      by_cases helig : (Grid.tileAt g x y).mined = false ∧ (x : Int) ≠ ex ∧ (y : Int) ≠ ey
      · rw [if_pos helig] at hrun
        obtain ⟨h1, h2⟩ := ih _ _ _ hrun
        rw [Grid.length_setTile] at h1
        exact ⟨h1, fun v => by rw [h2 v, Grid.rowLen_setTile]⟩
      · rw [if_neg helig] at hrun
        exact ih _ _ _ hrun

/-- `minedPositions` only looks at the mined facets. -/
theorem minedPositions_congr {g1 g2 : Grid} (w h : Nat)
    (hm : ∀ u v, (Grid.tileAt g1 u v).mined = (Grid.tileAt g2 u v).mined) :
    minedPositions g1 w h = minedPositions g2 w h := by
  unfold minedPositions
  apply Finset.filter_congr
  intro p _
  rw [hm p.1 p.2]

/-- C1: whenever `Board.add_mines` returns, every in-bounds tile's stored
`mine_count` equals the specification's Moore-neighbourhood mine count of
the resulting board, whatever mines the placement loop produced. -/
theorem c1_mine_counts_correct (b : Board) (ex ey : Int) (samples : List (Nat × Nat))
    (b' : Board) (hwf : b.wf)
    (hrun : b.add_mines ex ey samples = some b')
    (x y : Nat) (hx : x < b.width) (hy : y < b.height) :
    (Grid.tileAt b'._tiles x y).mine_count = specMooreCount b'._tiles (x : Int) (y : Int) := by
  unfold Board.add_mines at hrun
  cases hm : addMinesLoop b._tiles b._mine_count ex ey samples with
  | none => rw [hm] at hrun; cases hrun
  | some g =>
    rw [hm] at hrun
    simp only [Option.some.injEq] at hrun
    obtain ⟨h1, h2⟩ := addMinesLoop_shape ex ey samples b._tiles b._mine_count g hm
    have hlen : g.length = b.height := h1
    have hrow : ∀ v, v < b.height → Grid.rowLen g v = b.width := by
      intro v hv
      rw [h2 v]
      exact wf_rowLen hwf v hv
    have htiles : b'._tiles = updateCounts g b.width b.height := by
      rw [← hrun]
    rw [htiles, updateCounts_tileAt g b.width b.height hlen hrow x y, if_pos ⟨hy, hx⟩]
    have : ((Grid.tileAt g x y).set_mine_count
        (mooreSum g (x : Int) (y : Int))).mine_count = mooreSum g (x : Int) (y : Int) := rfl
    rw [this, mooreSum_eq_specMooreCount,
      specMooreCount_congr_mined (minedSame_updateCounts g b.width b.height)]

/-- Witness for C1 on the concrete 2-by-2 board. -/
theorem c1_witness :
    (Grid.tileAt b22._tiles 0 0).mine_count = specMooreCount b22._tiles 0 0 :=
  c1_mine_counts_correct b22base 0 0 [(1, 1)] b22 (by decide) (by decide) 0 0
    (by decide) (by decide)

/-- C2: starting from a mine-free board, whenever `Board.add_mines` returns,
exactly `_mine_count` cells are mined and none of them lies in the excluded
column or the excluded row. -/
theorem c2_placement_count_and_exclusion (b : Board) (ex ey : Int)
    (samples : List (Nat × Nat)) (b' : Board) (hwf : b.wf)
    (hfree : ∀ u v : Nat, (Grid.tileAt b._tiles u v).mined = false)
    (hsamp : ∀ p ∈ samples, p.1 < b.width ∧ p.2 < b.height)
    (hrun : b.add_mines ex ey samples = some b') :
    (minedPositions b'._tiles b.width b.height).card = b._mine_count ∧
    ∀ u v : Nat, (Grid.tileAt b'._tiles u v).mined = true →
      (u : Int) ≠ ex ∧ (v : Int) ≠ ey := by
  unfold Board.add_mines at hrun
  cases hm : addMinesLoop b._tiles b._mine_count ex ey samples with
  | none => rw [hm] at hrun; cases hrun
  | some g =>
    rw [hm] at hrun
    simp only [Option.some.injEq] at hrun
    have htiles : b'._tiles = updateCounts g b.width b.height := by
      rw [← hrun]
    have hrow : ∀ v, v < b.height → Grid.rowLen b._tiles v = b.width := fun v hv =>
      wf_rowLen hwf v hv
    obtain ⟨_, hexcl, hcard⟩ := addMinesLoop_spec ex ey b.width b.height samples
      b._tiles b._mine_count g rfl hrow hsamp hm
    have hmg : ∀ u v : Nat, (Grid.tileAt b'._tiles u v).mined = (Grid.tileAt g u v).mined := by
      intro u v
      rw [htiles]
      exact (minedSame_updateCounts g b.width b.height).2.2 u v
    constructor
    · have hzero : minedPositions b._tiles b.width b.height = ∅ := by
        unfold minedPositions
        rw [Finset.filter_false_of_mem]
        intro p _
        rw [hfree p.1 p.2]
        simp
      rw [minedPositions_congr b.width b.height hmg, hcard, hzero]
      simp
    · intro u v hmined
      rw [hmg u v] at hmined
      rcases hexcl u v hmined with hcontr | hok
      · rw [hfree u v] at hcontr
        cases hcontr
      · exact hok

/-- `getD` on a replicated list. -/
theorem getD_replicate {α : Type} (n : Nat) (a d : α) (i : Nat) :
    (List.replicate n a).getD i d = if i < n then a else d := by
  unfold List.getD
  rw [List.get?_eq_getElem?, List.getElem?_replicate]
  by_cases h : i < n
  · rw [if_pos h, if_pos h]; rfl
  · rw [if_neg h, if_neg h]; rfl

/-- Every cell of a freshly sized grid holds the default tile. -/
theorem tileAt_replicate_init (w h u v : Nat) :
    Grid.tileAt (List.replicate h (List.replicate w Tile.init)) u v = Tile.init := by
  unfold Grid.tileAt
  rw [getD_replicate]
  by_cases hv : v < h
  · rw [if_pos hv, getD_replicate]
    by_cases hu : u < w
    · rw [if_pos hu]
    · rw [if_neg hu]
  · rw [if_neg hv]
    rfl

/-- The fresh 2-by-2 board has no mines anywhere. -/
theorem b22base_mine_free : ∀ u v : Nat, (Grid.tileAt b22base._tiles u v).mined = false := by
  intro u v
  rw [show b22base._tiles = List.replicate 2 (List.replicate 2 Tile.init) from rfl,
    tileAt_replicate_init]
  rfl

/-- Witness for C2 on the concrete 2-by-2 board. -/
theorem c2_witness :
    (minedPositions b22._tiles b22base.width b22base.height).card = b22base._mine_count ∧
    ((1 : Nat) : Int) ≠ 0 ∧ ((1 : Nat) : Int) ≠ 0 :=
  ⟨(c2_placement_count_and_exclusion b22base 0 0 [(1, 1)] b22 (by decide) b22base_mine_free
      (by decide) (by decide)).1,
   (c2_placement_count_and_exclusion b22base 0 0 [(1, 1)] b22 (by decide) b22base_mine_free
      (by decide) (by decide)).2 1 1 (by decide)⟩

/-- Per-tile reading of the second `game_over` loop: a tile does not block
the win exactly when it is uncovered or a covered flagged mine. -/
theorem tile_win_case (t : Tile) :
    (t.covered && !(t.flagged && t.mined)) = false ↔
      t.uncovered = true ∨ (t.uncovered = false ∧ t.flagged = true ∧ t.mined = true) := by
  unfold Tile.covered
  cases hu : t.uncovered <;> cases hf : t.flagged <;> cases hm : t.mined <;> simp

/-- C6: `game_over` is true exactly when some tile has exploded or every
tile is uncovered or a covered flagged mine; being a plain function of the
board it mutates nothing. -/
theorem c6_game_over_iff (b : Board) :
    b.game_over = true ↔
      (∃ row ∈ b._tiles, ∃ t ∈ row, t.exploded = true) ∨
      (∀ row ∈ b._tiles, ∀ t ∈ row, t.uncovered = true ∨
        (t.uncovered = false ∧ t.flagged = true ∧ t.mined = true)) := by
  unfold Board.game_over
  rw [Bool.or_eq_true]
  apply or_congr
  · simp [List.any_eq_true]
  · rw [Bool.not_eq_true', List.any_eq_false]
    constructor
    · intro h row hrow t ht
      have hr := h row hrow
      rw [Bool.not_eq_true, List.any_eq_false] at hr
      have ht' := hr t ht
      rw [Bool.not_eq_true] at ht'
      exact (tile_win_case t).mp ht'
    · intro h row hrow
      rw [Bool.not_eq_true, List.any_eq_false]
      intro t ht
      rw [Bool.not_eq_true]
      exact (tile_win_case t).mpr (h row hrow t ht)

/-- C7: the toggle-flag intent is a two-state toggle with marks disabled and
a three-state cycle with marks enabled, starting from an unflagged unmarked
covered tile. -/
theorem c7_flag_toggle_cycles (t : Tile) (hc : t.uncovered = false)
    (hf : t.flagged = false) (hm : t.marked = false) :
    toggleFlag false (toggleFlag false t) = t ∧
    toggleFlag true (toggleFlag true (toggleFlag true t)) = t := by
  cases t with
  | mk u mi fl ma ex mc =>
    have hf' : fl = false := hf
    have hm' : ma = false := hm
    subst hf'; subst hm'
    exact ⟨rfl, rfl⟩

/-- Witness for C7 on the default tile. -/
theorem c7_witness :
    toggleFlag false (toggleFlag false Tile.init) = Tile.init ∧
    toggleFlag true (toggleFlag true (toggleFlag true Tile.init)) = Tile.init :=
  c7_flag_toggle_cycles Tile.init rfl rfl rfl

/-- Every tile operation preserves the never-flagged-and-marked invariant. -/
theorem tileOp_preserves_not_both (op : TileOp) (t : Tile)
    (h : (t.flagged && t.marked) = false) :
    ((op.apply t).flagged && (op.apply t).marked) = false := by
  cases op <;>
    simp only [TileOp.apply, Tile.uncover, Tile.mine, Tile.flag, Tile.unflag, Tile.mark,
      Tile.unmark, Tile.explode, Tile.set_mine_count, Tile.reset, Tile.init] <;>
    first
      | exact h
      | simp

/-- C9: no sequence of tile operations starting from the default tile ever
makes `flagged` and `marked` simultaneously true, because `flag` clears the
mark and `mark` clears the flag. -/
theorem c9_never_flagged_and_marked (ops : List TileOp) :
    ((applyOps ops Tile.init).flagged && (applyOps ops Tile.init).marked) = false := by
  suffices h : ∀ t : Tile, (t.flagged && t.marked) = false →
      ((applyOps ops t).flagged && (applyOps ops t).marked) = false from h Tile.init rfl
  induction ops with
  | nil => intro t h; exact h
  | cons op rest ih =>
    intro t h
    exact ih (op.apply t) (tileOp_preserves_not_both op t h)

/-- `pyGet` at a nonnegative in-range index reads directly. -/
theorem pyGet_eq_get_of_nonneg {α : Type} (l : List α) (i : Int)
    (h0 : 0 ≤ i) (hl : i < (l.length : Int)) : pyGet l i = l.get? i.toNat := by
  unfold pyGet
  rw [if_pos ⟨h0, hl⟩]

/-- `pyGet` at a negative index within `[-len, 0)` reads from the end. -/
theorem pyGet_eq_get_of_neg {α : Type} (l : List α) (i : Int)
    (h0 : -(l.length : Int) ≤ i) (hl : i < 0) :
    pyGet l i = l.get? ((l.length : Int) + i).toNat := by
  unfold pyGet
  have hn : ¬(0 ≤ i ∧ i < (l.length : Int)) := by omega
  rw [if_neg hn, if_pos ⟨h0, hl⟩]

/-- C10: `Board.at` performs no validation of its own; a negative column in
`[-width, 0)` (or row in `[-height, 0)`) silently aliases the tile at
`width + x` (or `height + y`) through Python's negative indexing, returning
an actual tile instead of failing or no-oping. -/
theorem c10_at_negative_indexing (b : Board) (hwf : b.wf) :
    (∀ x y : Int, -(b.width : Int) ≤ x → x < 0 → 0 ≤ y → y < (b.height : Int) →
      b.at' x y = b.at' ((b.width : Int) + x) y ∧ (b.at' x y).isSome = true) ∧
    (∀ x y : Int, -(b.height : Int) ≤ y → y < 0 →
      b.at' x y = b.at' x ((b.height : Int) + y)) := by
  constructor
  · intro x y hx1 hx2 hy1 hy2
    have hlen : b._tiles.length = b.height := rfl
    have hyt : y.toNat < b._tiles.length := by
      unfold Board.height at hy2
      omega
    have houter : pyGet b._tiles y = some b._tiles[y.toNat] := by
      rw [pyGet_eq_get_of_nonneg _ _ hy1 (by rw [hlen]; exact hy2),
        List.get?_eq_getElem?, List.getElem?_eq_getElem hyt]
    have hrl : b._tiles[y.toNat].length = b.width := hwf _ (List.getElem_mem hyt)
    unfold Board.at'
    rw [houter, Option.some_bind, Option.some_bind]
    have hrl' : ((b._tiles[y.toNat].length : Nat) : Int) = (b.width : Int) := by
      rw [hrl]
    constructor
    · rw [pyGet_eq_get_of_neg _ _ (by omega) hx2,
        pyGet_eq_get_of_nonneg _ _ (by omega) (by omega), hrl]
    · rw [pyGet_eq_get_of_neg _ _ (by omega) hx2, List.get?_eq_getElem?]
      rw [List.getElem?_eq_getElem (by omega)]
      rfl
  · intro x y hy1 hy2
    have hlen : b._tiles.length = b.height := rfl
    unfold Board.at'
    rw [pyGet_eq_get_of_neg _ _ (by omega) hy2,
      pyGet_eq_get_of_nonneg _ _ (by omega) (by omega), hlen]

/-- Witness for C10 on the concrete 2-by-2 board. -/
theorem c10_witness :
    (b22.at' (-1) 0 = b22.at' 1 0 ∧ (b22.at' (-1) 0).isSome = true) ∧
    b22.at' 0 (-1) = b22.at' 0 1 :=
  ⟨(c10_at_negative_indexing b22 (by decide)).1 (-1) 0 (by decide) (by decide)
      (by decide) (by decide),
   (c10_at_negative_indexing b22 (by decide)).2 0 (-1) (by decide) (by decide)⟩

/-- A 5-by-1 board with one mine target. -/
def b5base : Board := (Board.init.set_size 5 1).set_mine_count 1

/-- The 5-by-1 board after mining cell `(0, 0)` and computing counts, then
flagging the mine: the stage on which a chord at `(1, 0)` acts. -/
def b5 : Board :=
  let b := (b5base.add_mines 4 2 [(0, 0)]).getD b5base
  b.setTileI 0 0 ((b.tileAtI 0 0).flag)

/-- A 3-by-3 board with one mine target. -/
def b3base : Board := (Board.init.set_size 3 3).set_mine_count 1

/-- The 3-by-3 board of the spec's end-to-end example: a single mine at
`(2, 2)`, neighbour counts computed. -/
def b3 : Board := (b3base.add_mines 0 0 [(2, 2)]).getD b3base

/-- Effect of the chord loop body on the neighbour's own tile. -/
def chordEffect (t : Tile) : Tile :=
  if t.mined = true ∧ t.flagged = false then t.explode
  else if t.mined = false ∧ t.flagged = false then t.uncover
  else t

/-- `chordStep` keeps the grid's shape. -/
theorem chordStep_shape (b : Board) (p : Int × Int) :
    (chordStep b p)._tiles.length = b._tiles.length ∧
    ∀ v, Grid.rowLen (chordStep b p)._tiles v = Grid.rowLen b._tiles v := by
  simp only [chordStep]
  split
  · exact ⟨Grid.length_setTile _ _ _ _, Grid.rowLen_setTile _ _ _ _⟩
  · split
    · exact ⟨Grid.length_setTile _ _ _ _, Grid.rowLen_setTile _ _ _ _⟩
    · exact ⟨rfl, fun _ => rfl⟩

/-- Pointwise reading of one chord loop iteration at an in-bounds
neighbour. -/
theorem chordStep_tileAt (b : Board) (p : Int × Int)
    (hp1 : 0 ≤ p.1) (hp2 : 0 ≤ p.2)
    (hin : p.2.toNat < b._tiles.length ∧ p.1.toNat < Grid.rowLen b._tiles p.2.toNat) :
    ∀ u v : Nat, Grid.tileAt (chordStep b p)._tiles u v =
      if u = p.1.toNat ∧ v = p.2.toNat then chordEffect (Grid.tileAt b._tiles u v)
      else Grid.tileAt b._tiles u v := by
  intro u v
  have hc1' : ((b.tileAtI p.1 p.2).mined = true ∧ (b.tileAtI p.1 p.2).flagged = false) =
      ((Grid.tileAt b._tiles p.1.toNat p.2.toNat).mined = true ∧
        (Grid.tileAt b._tiles p.1.toNat p.2.toNat).flagged = false) := rfl
  have hc2' : ((b.tileAtI p.1 p.2).mined = false ∧ (b.tileAtI p.1 p.2).flagged = false) =
      ((Grid.tileAt b._tiles p.1.toNat p.2.toNat).mined = false ∧
        (Grid.tileAt b._tiles p.1.toNat p.2.toNat).flagged = false) := rfl
  unfold chordStep chordEffect
  by_cases hc1 : (b.tileAtI p.1 p.2).mined = true ∧ (b.tileAtI p.1 p.2).flagged = false
  · rw [if_pos hc1]
    simp only [Board.setTileI]
    rw [Grid.tileAt_setTile]
    by_cases hq : u = p.1.toNat ∧ v = p.2.toNat
    · rw [if_pos ⟨hq.1, hq.2, hin.1, hin.2⟩, if_pos hq]
      obtain ⟨h1, h2⟩ := hq
      subst h1; subst h2
      rw [if_pos (hc1' ▸ hc1)]
      rfl
    · rw [if_neg (fun hh => hq ⟨hh.1, hh.2.1⟩), if_neg hq]
  · rw [if_neg hc1]
    by_cases hc2 : (b.tileAtI p.1 p.2).mined = false ∧ (b.tileAtI p.1 p.2).flagged = false
    · rw [if_pos hc2]
      simp only [Board.setTileI]
      rw [Grid.tileAt_setTile]
      by_cases hq : u = p.1.toNat ∧ v = p.2.toNat
      · rw [if_pos ⟨hq.1, hq.2, hin.1, hin.2⟩, if_pos hq]
        obtain ⟨h1, h2⟩ := hq
        subst h1; subst h2
        rw [if_neg (hc1' ▸ hc1), if_pos (hc2' ▸ hc2)]
        rfl
      · rw [if_neg (fun hh => hq ⟨hh.1, hh.2.1⟩), if_neg hq]
    · rw [if_neg hc2]
      by_cases hq : u = p.1.toNat ∧ v = p.2.toNat
      · rw [if_pos hq]
        obtain ⟨h1, h2⟩ := hq
        subst h1; subst h2
        rw [if_neg (hc1' ▸ hc1), if_neg (hc2' ▸ hc2)]
      · rw [if_neg hq]

/-- Pointwise reading of the whole chord loop over distinct in-bounds
neighbours: every listed cell gets `chordEffect` of its old tile, every
other cell is untouched. -/
theorem chordFold_tileAt (w h : Nat) :
    ∀ (ps : List (Int × Int)) (b : Board), ps.Nodup →
    b._tiles.length = h → (∀ v, v < h → Grid.rowLen b._tiles v = w) →
    (∀ p ∈ ps, 0 ≤ p.1 ∧ p.1 < (w : Int) ∧ 0 ≤ p.2 ∧ p.2 < (h : Int)) →
    ∀ u v : Nat, Grid.tileAt (ps.foldl chordStep b)._tiles u v =
      if ((u : Int), (v : Int)) ∈ ps then chordEffect (Grid.tileAt b._tiles u v)
      else Grid.tileAt b._tiles u v := by
  intro ps
  induction ps with
  | nil => intro b _ _ _ _ u v; simp
  | cons p ps' ih =>
    intro b hnd hlen hrow hbnd u v
    rw [List.foldl_cons]
    have hb := hbnd p (List.mem_cons_self _ _)
    have hin : p.2.toNat < b._tiles.length ∧ p.1.toNat < Grid.rowLen b._tiles p.2.toNat := by
      constructor
      · omega
      · rw [hrow p.2.toNat (by omega)]
        omega
    have hshape := chordStep_shape b p
    have hstep := chordStep_tileAt b p hb.1 hb.2.2.1 hin
    have ihres := ih (chordStep b p) (List.nodup_cons.mp hnd).2
      (by rw [hshape.1]; exact hlen)
      (fun v' hv' => by rw [hshape.2 v']; exact hrow v' hv')
      (fun q hq => hbnd q (List.mem_cons_of_mem _ hq)) u v
    rw [ihres]
    by_cases hmem : ((u : Int), (v : Int)) ∈ ps'
    · rw [if_pos hmem, if_pos (List.mem_cons_of_mem _ hmem)]
      have hne : ¬(u = p.1.toNat ∧ v = p.2.toNat) := by
        intro hh
        have heq : ((u : Int), (v : Int)) = p := by
          have e1 : (u : Int) = p.1 := by rw [hh.1]; exact Int.toNat_of_nonneg hb.1
          have e2 : (v : Int) = p.2 := by rw [hh.2]; exact Int.toNat_of_nonneg hb.2.2.1
          rw [e1, e2]
        exact (List.nodup_cons.mp hnd).1 (heq ▸ hmem)
      rw [hstep u v, if_neg hne]
    · rw [if_neg hmem, hstep u v]
      by_cases hq : u = p.1.toNat ∧ v = p.2.toNat
      · have heq : ((u : Int), (v : Int)) = p := by
          have e1 : (u : Int) = p.1 := by rw [hq.1]; exact Int.toNat_of_nonneg hb.1
          have e2 : (v : Int) = p.2 := by rw [hq.2]; exact Int.toNat_of_nonneg hb.2.2.1
          rw [e1, e2]
        rw [if_pos hq, if_pos (by rw [heq]; exact List.mem_cons_self _ _)]
      · rw [if_neg hq, if_neg ?_]
        intro hh
        rcases List.mem_cons.mp hh with hh1 | hh1
        · apply hq
          rw [Prod.mk.injEq] at hh1
          constructor
          · rw [← hh1.1]
            omega
          · rw [← hh1.2]
            omega
        · exact hmem hh1

/-- The eight Moore offset coordinates are pairwise distinct. -/
theorem mooreOffsets_nodup (x y : Int) : (mooreOffsets x y).Nodup := by
  unfold mooreOffsets
  simp only [List.nodup_cons, List.mem_cons, List.not_mem_nil, or_false,
    List.mem_singleton, Prod.mk.injEq, not_or, List.nodup_nil, and_true, not_and]
  repeat' constructor
  all_goals intros
  all_goals first
    | omega
    | exact not_false

/-- The neighbour list never repeats a coordinate. -/
theorem neighbours_nodup (b : Board) (x y : Int) : (b.neighbours x y).Nodup :=
  (mooreOffsets_nodup x y).filter _

/-- Every listed neighbour is in bounds. -/
theorem neighbours_bounds (b : Board) (x y : Int) :
    ∀ p ∈ b.neighbours x y,
      0 ≤ p.1 ∧ p.1 < (b.width : Int) ∧ 0 ≤ p.2 ∧ p.2 < (b.height : Int) := by
  intro p hp
  unfold Board.neighbours at hp
  exact (valid_iff b p.1 p.2).mp (List.mem_filter.mp hp).2

/-- C5 (amended): with a positive-count target, a chord whose
flagged-neighbour count differs from the target's `mine_count` changes
nothing; an exact match explodes every unflagged mined neighbour without
uncovering it and sets the `uncovered` facet of every unflagged non-mined
neighbour directly — a tile-level uncover, not the recursive flood fill, so
a zero-count neighbour does not cascade — while every cell outside the
neighbour list is untouched. -/
theorem c5_chord_amended (b : Board) (tx ty : Nat) (hwf : b.wf)
    (hx : tx < b.width) (hy : ty < b.height)
    (hcount : 0 < (b.tileAtI (tx : Int) (ty : Int)).mine_count) :
    (((b.neighbours (tx : Int) (ty : Int)).countP
        (fun p => (b.tileAtI p.1 p.2).flagged) ≠
        (b.tileAtI (tx : Int) (ty : Int)).mine_count → chordAction b tx ty = b) ∧
    (((b.neighbours (tx : Int) (ty : Int)).countP
        (fun p => (b.tileAtI p.1 p.2).flagged) =
        (b.tileAtI (tx : Int) (ty : Int)).mine_count →
      (∀ p ∈ b.neighbours (tx : Int) (ty : Int),
        ((b.tileAtI p.1 p.2).mined = true ∧ (b.tileAtI p.1 p.2).flagged = false →
          (chordAction b tx ty).tileAtI p.1 p.2 = (b.tileAtI p.1 p.2).explode ∧
          ((chordAction b tx ty).tileAtI p.1 p.2).uncovered =
            (b.tileAtI p.1 p.2).uncovered) ∧
        ((b.tileAtI p.1 p.2).mined = false ∧ (b.tileAtI p.1 p.2).flagged = false →
          (chordAction b tx ty).tileAtI p.1 p.2 = (b.tileAtI p.1 p.2).uncover)) ∧
      ∀ u v : Nat, ((u : Int), (v : Int)) ∉ b.neighbours (tx : Int) (ty : Int) →
        Grid.tileAt (chordAction b tx ty)._tiles u v = Grid.tileAt b._tiles u v))) := by
  have hfold : ∀ u v : Nat,
      (b.neighbours (tx : Int) (ty : Int)).countP
          (fun p => (b.tileAtI p.1 p.2).flagged) =
        (b.tileAtI (tx : Int) (ty : Int)).mine_count →
      Grid.tileAt (chordAction b tx ty)._tiles u v =
        if ((u : Int), (v : Int)) ∈ b.neighbours (tx : Int) (ty : Int) then
          chordEffect (Grid.tileAt b._tiles u v)
        else Grid.tileAt b._tiles u v := by
    intro u v hfc
    unfold chordAction
    rw [if_pos hcount, if_pos hfc]
    exact chordFold_tileAt b.width b.height (b.neighbours (tx : Int) (ty : Int)) b
      (neighbours_nodup b _ _) rfl (fun v' hv' => wf_rowLen hwf v' hv')
      (neighbours_bounds b _ _) u v
  refine ⟨?_, fun hfc => ⟨fun p hp => ?_, fun u v hnot => ?_⟩⟩
  · intro hne
    unfold chordAction
    rw [if_pos hcount, if_neg hne]
  · have hb := neighbours_bounds b (tx : Int) (ty : Int) p hp
    have hmem : (((p.1.toNat : Nat) : Int), ((p.2.toNat : Nat) : Int)) = p := by
      rw [Int.toNat_of_nonneg hb.1, Int.toNat_of_nonneg hb.2.2.1]
    have hchar := hfold p.1.toNat p.2.toNat hfc
    rw [hmem] at hchar
    rw [if_pos hp] at hchar
    constructor
    · intro hcase
      have hcase' : (Grid.tileAt b._tiles p.1.toNat p.2.toNat).mined = true ∧
          (Grid.tileAt b._tiles p.1.toNat p.2.toNat).flagged = false := hcase
      have heff : chordEffect (Grid.tileAt b._tiles p.1.toNat p.2.toNat) =
          (b.tileAtI p.1 p.2).explode := by
        unfold chordEffect
        rw [if_pos hcase']
        rfl
      constructor
      · show Grid.tileAt (chordAction b tx ty)._tiles p.1.toNat p.2.toNat = _
        rw [hchar, heff]
      · show (Grid.tileAt (chordAction b tx ty)._tiles p.1.toNat p.2.toNat).uncovered = _
        rw [hchar, heff]
        rfl
    · intro hcase
      have hcase' : (Grid.tileAt b._tiles p.1.toNat p.2.toNat).mined = false ∧
          (Grid.tileAt b._tiles p.1.toNat p.2.toNat).flagged = false := hcase
      have heff : chordEffect (Grid.tileAt b._tiles p.1.toNat p.2.toNat) =
          (b.tileAtI p.1 p.2).uncover := by
        unfold chordEffect
        rw [if_neg (fun hh => by rw [hcase'.1] at hh; exact Bool.noConfusion hh.1),
          if_pos hcase']
        rfl
      show Grid.tileAt (chordAction b tx ty)._tiles p.1.toNat p.2.toNat = _
      rw [hchar, heff]
  · have hchar := hfold u v hfc
    rw [if_neg hnot] at hchar
    exact hchar

/-- Counterexample to C5 as stated: on the 5-by-1 board with the mine at
`(0, 0)` flagged, a matching chord at `(1, 0)` merely sets the `uncovered`
facet of the zero-count neighbour `(2, 0)`; the spec's flood-fill version
would also uncover `(3, 0)`, which the code leaves covered. -/
theorem c5_counterexample :
    ((chordAction b5 1 0).tileAtI 3 0).uncovered = false ∧
    ((chordActionSpec b5 1 0).tileAtI 3 0).uncovered = true := by
  constructor
  · decide
  · decide

/-- Witness for C5 (amended) on the concrete 5-by-1 board: the chord at
`(1, 0)` matches one flag, directly uncovers the non-mined neighbour
`(2, 0)`, and leaves the non-neighbour `(3, 0)` untouched. -/
theorem c5_witness :
    (chordAction b5 1 0).tileAtI 2 0 = (b5.tileAtI 2 0).uncover ∧
    Grid.tileAt (chordAction b5 1 0)._tiles 3 0 = Grid.tileAt b5._tiles 3 0 :=
  ⟨(((c5_chord_amended b5 1 0 (by decide) (by decide) (by decide) (by decide)).2
      (by decide)).1 (2, 0) (by decide)).2 (by decide),
   ((c5_chord_amended b5 1 0 (by decide) (by decide) (by decide) (by decide)).2
      (by decide)).2 3 0 (by decide)⟩

/-- Counterexample to C8 as stated: the claim asserts every tile other than
`(0, 0)`, `(1, 0)`, `(0, 1)`, `(1, 1)` stays covered, but the cascade also
reaches `(2, 0)` (a zero-count tile adjacent to the zero-count `(1, 0)`)
and uncovers it. -/
theorem c8_counterexample :
    ((b3.uncover 0 0).tileAtI 2 0).uncovered = true := by
  decide

/-- C8 (amended): on the 3-by-3 board with its single mine at `(2, 2)` and
counts computed, revealing `(0, 0)` uncovers all eight non-mine tiles —
`(0, 0)`, `(1, 0)`, `(0, 1)`, `(1, 1)` with counts 0, 0, 0, 1 as the claim
lists, and also `(2, 0)`, `(2, 1)`, `(0, 2)`, `(1, 2)` with counts
0, 1, 0, 1 — while only the mined `(2, 2)` stays covered. -/
theorem c8_amended_cascade :
    (b3.uncover 0 0)._tiles =
      [[{ uncovered := true, mine_count := 0 }, { uncovered := true, mine_count := 0 },
        { uncovered := true, mine_count := 0 }],
       [{ uncovered := true, mine_count := 0 }, { uncovered := true, mine_count := 1 },
        { uncovered := true, mine_count := 1 }],
       [{ uncovered := true, mine_count := 0 }, { uncovered := true, mine_count := 1 },
        { mined := true, mine_count := 0 }]] := by
  decide
